import Mathlib

/-!
Shallow embedding of the variant data model and processing helpers of
`src/c++/include/Variant.hh` (namespace `variant` of the hap.py repository),
with theorems settling the specification's claims about genotype
classification, derived block predicates, annotation updates and the
block-overlap buffering policy.

Machine integers (`int`, `int64_t`) are modelled as `Int`, `size_t` as `Nat`;
no arithmetic in the modelled code can overflow in the ranges the claims
touch.  The fixed array `int gt[MAX_GT]` (with `MAX_GT = 2`) is modelled as a
total function `Fin 2 → Int`.
-/

namespace variant

/-- `MAX_GT` from Variant.hh: ploidy capacity of the genotype array. -/
def MAX_GT : Nat := 2

/-- `MAX_FILTER` from Variant.hh: capacity of the filter tag array. -/
def MAX_FILTER : Nat := 20

/-- The `gttype` enum of Variant.hh: genotype categories. -/
inductive gttype where
  | gt_homref
  | gt_haploid
  | gt_het
  | gt_homalt
  | gt_hetalt
  | gt_unknown
deriving DecidableEq

/-- The `Call` struct of Variant.hh: one sample's variant call at a location.
`float` fields (`gq`, `qual`) are carried as `Float` but never inspected by
any claim. -/
structure Call where
  gt : Fin 2 → Int
  ad_ref : Int
  ad_other : Int
  ad : Fin 2 → Int
  ngt : Nat
  phased : Bool
  filter : Fin 20 → String
  nfilter : Nat
  gq : Float
  dp : Int
  qual : Float

/-- Array read `gt[i]` of the C++ code. Under the documented invariant
`ngt ≤ MAX_GT` every read performed by the code has `i < 2`; the `else`
branch is unreachable there. -/
def Call.gtAt (c : Call) (i : Nat) : Int :=
  if h : i < 2 then c.gt ⟨i, h⟩ else 0

/-- `Call::isNocall`: loop over `i < ngt`, return false on `gt[i] >= 0`,
otherwise true. -/
def Call.isNocall (c : Call) : Bool :=
  (List.range c.ngt).all fun i => decide (c.gtAt i < 0)

/-- `Call::isHomref`: loop over `i < ngt`, return false on `gt[i] != 0`,
then return `ngt > 0`. -/
def Call.isHomref (c : Call) : Bool :=
  ((List.range c.ngt).all fun i => decide (c.gtAt i = 0)) && decide (0 < c.ngt)

/-- `Call::isHet`: `ngt == 2 && ((gt[0] == 0 && gt[1] > 0) || (gt[0] > 0 && gt[1] == 0))`. -/
def Call.isHet (c : Call) : Bool :=
  decide (c.ngt = 2) &&
    ((decide (c.gtAt 0 = 0) && decide (0 < c.gtAt 1)) ||
     (decide (0 < c.gtAt 0) && decide (c.gtAt 1 = 0)))

/-- `Call::isHomalt`: `ngt == 2 && gt[0] == gt[1] && gt[1] > 0`. -/
def Call.isHomalt (c : Call) : Bool :=
  decide (c.ngt = 2) && decide (c.gtAt 0 = c.gtAt 1) && decide (0 < c.gtAt 1)

/-- `Call::isHemi`: `ngt == 1`. -/
def Call.isHemi (c : Call) : Bool :=
  decide (c.ngt = 1)

/-- Builds a `Call` with the given first two genotype entries and active
length, every other field at the default the `Call()` constructor sets. -/
def mkCall (g0 g1 : Int) (n : Nat) : Call where
  gt := fun i => if i = 0 then g0 else g1
  ad_ref := -1
  ad_other := -1
  ad := fun _ => -1
  ngt := n
  phased := false
  filter := fun _ => ""
  nfilter := 0
  gq := 0
  dp := -1
  qual := 0

/-- Modelled from the spec: `getGTType` is declared in Variant.hh but
implemented in Variant.cpp, which is not among the provided sources.  The
spec's `classify(call)`: `unknown` if the active genotype length is 0;
`hom-ref` if length > 0 and every allele index equals 0; `haploid` if
length == 1 and the allele index is > 0; `het` if length == 2 and exactly one
allele is 0 and the other is > 0; `hom-alt` if length == 2 and both alleles
are equal and > 0; `het-alt` if length == 2 and both alleles > 0 and unequal;
otherwise `unknown`. -/
def getGTType (c : Call) : gttype :=
  if c.ngt = 0 then gttype.gt_unknown
  else if c.isHomref then gttype.gt_homref
  else if c.ngt = 1 && decide (0 < c.gtAt 0) then gttype.gt_haploid
  else if c.isHet then gttype.gt_het
  else if c.isHomalt then gttype.gt_homalt
  else if c.ngt = 2 && decide (0 < c.gtAt 0) && decide (0 < c.gtAt 1) &&
          !(decide (c.gtAt 0 = c.gtAt 1)) then gttype.gt_hetalt
  else gttype.gt_unknown

theorem gtAt_eq (c : Call) (i : Fin 2) : c.gtAt (i : Nat) = c.gt i := by
  simp [Call.gtAt, i.isLt]

/-- C1: `isNocall` is true iff every active allele index `gt[i]` (`i < ngt`)
is negative; when `ngt = 0` it holds vacuously. -/
theorem isNocall_iff_all_neg (c : Call) (h : c.ngt ≤ 2) :
    (c.isNocall = true ↔ ∀ i : Fin 2, (i : Nat) < c.ngt → c.gt i < 0) ∧
    (c.ngt = 0 → c.isNocall = true) := by
  constructor
  · rw [Call.isNocall, List.all_eq_true]
    constructor
    · intro hall i hi
      have := hall (i : Nat) (List.mem_range.mpr hi)
      rw [gtAt_eq] at this
      exact of_decide_eq_true this
    · intro hall i hi
      have hi' := List.mem_range.mp hi
      have hlt : i < 2 := lt_of_lt_of_le hi' h
      have := hall ⟨i, hlt⟩ hi'
      rw [decide_eq_true_eq, Call.gtAt, dif_pos hlt]
      exact this
  · intro h0
    rw [Call.isNocall, h0]
    rfl

theorem isNocall_iff_all_neg_witness :
    (mkCall (-1) (-1) 2).ngt ≤ 2 ∧
    (((mkCall (-1) (-1) 2).isNocall = true ↔
        ∀ i : Fin 2, (i : Nat) < (mkCall (-1) (-1) 2).ngt →
          (mkCall (-1) (-1) 2).gt i < 0) ∧
     ((mkCall (-1) (-1) 2).ngt = 0 → (mkCall (-1) (-1) 2).isNocall = true)) :=
  ⟨by decide, isNocall_iff_all_neg (mkCall (-1) (-1) 2) (by decide)⟩

/-- C3: `isHomref` is true iff `ngt > 0` and every active allele index
equals 0. -/
theorem isHomref_iff (c : Call) (h : c.ngt ≤ 2) :
    c.isHomref = true ↔
      0 < c.ngt ∧ ∀ i : Fin 2, (i : Nat) < c.ngt → c.gt i = 0 := by
  rw [Call.isHomref, Bool.and_eq_true, List.all_eq_true, decide_eq_true_eq]
  constructor
  · rintro ⟨hall, hpos⟩
    refine ⟨hpos, fun i hi => ?_⟩
    have := hall (i : Nat) (List.mem_range.mpr hi)
    rw [gtAt_eq] at this
    exact of_decide_eq_true this
  · rintro ⟨hpos, hall⟩
    refine ⟨fun i hi => ?_, hpos⟩
    have hi' := List.mem_range.mp hi
    have hlt : i < 2 := lt_of_lt_of_le hi' h
    have := hall ⟨i, hlt⟩ hi'
    rw [decide_eq_true_eq, Call.gtAt, dif_pos hlt]
    exact this

theorem isHomref_iff_witness :
    (mkCall 0 0 2).ngt ≤ 2 ∧
    ((mkCall 0 0 2).isHomref = true ↔
      0 < (mkCall 0 0 2).ngt ∧
      ∀ i : Fin 2, (i : Nat) < (mkCall 0 0 2).ngt → (mkCall 0 0 2).gt i = 0) :=
  ⟨by decide, isHomref_iff (mkCall 0 0 2) (by decide)⟩

/-- C4: `isHet` is true iff `ngt = 2` and exactly one of the two active
allele indices is 0 while the other is strictly positive. -/
theorem isHet_iff (c : Call) :
    c.isHet = true ↔
      c.ngt = 2 ∧ ((c.gt 0 = 0 ∧ 0 < c.gt 1) ∨ (0 < c.gt 0 ∧ c.gt 1 = 0)) := by
  have h0 : c.gtAt 0 = c.gt 0 := gtAt_eq c 0
  have h1 : c.gtAt 1 = c.gt 1 := gtAt_eq c 1
  simp [Call.isHet, h0, h1, and_assoc]

/-- C5: `isHomalt` is true iff `ngt = 2` and the two active allele indices
are equal and strictly positive. -/
theorem isHomalt_iff (c : Call) :
    c.isHomalt = true ↔ c.ngt = 2 ∧ c.gt 0 = c.gt 1 ∧ 0 < c.gt 1 := by
  have h0 : c.gtAt 0 = c.gt 0 := gtAt_eq c 0
  have h1 : c.gtAt 1 = c.gt 1 := gtAt_eq c 1
  simp [Call.isHomalt, h0, h1, and_assoc]

/-- C9: `isHemi` is true iff `ngt = 1`, regardless of the allele value; a
haploid no-call (single missing allele) satisfies both `isHemi` and
`isNocall`. -/
theorem isHemi_iff_ngt_one :
    (∀ c : Call, c.isHemi = true ↔ c.ngt = 1) ∧
    ((mkCall (-1) (-1) 1).isHemi = true ∧ (mkCall (-1) (-1) 1).isNocall = true) ∧
    ((mkCall 0 0 1).isHemi = true ∧ (mkCall (-3) 0 1).isHemi = true) := by
  refine ⟨fun c => ?_, by decide, by decide⟩
  simp [Call.isHemi]

/-- C6: the classification predicates are not mutually exclusive — a call
with `ngt = 1` and `gt[0] = 0` satisfies both `isHomref` and `isHemi`, and a
call with `ngt = 0` satisfies `isNocall` while classifying as `unknown`. -/
theorem predicates_not_mutually_exclusive :
    ((mkCall 0 (-1) 1).isHomref = true ∧ (mkCall 0 (-1) 1).isHemi = true) ∧
    ((mkCall (-1) (-1) 0).isNocall = true ∧
     getGTType (mkCall (-1) (-1) 0) = gttype.gt_unknown) := by
  decide

/-- Modelled from the spec: the `RefVar` allele-edit type lives in RefVar.hh,
which is not among the provided sources; the spec treats it as an already
defined sub-span replacement of reference sequence, so only its span
(`start`, `end`, here `stop`) and replacement sequence are carried. -/
structure RefVar where
  start : Int
  stop : Int
  alt : String
deriving DecidableEq

/-- The `Variants` struct of Variant.hh: one block of co-located records.
The shared annotation string `info` is modelled as its list of `key=value`
tokens (the delimited-token sub-format `setVariantInfo` operates on). -/
structure Variants where
  chr : String
  variation : List RefVar
  calls : List Call
  pos : Int
  len : Int
  info : List (String × String)
  ambiguous_alleles : List (List Int)

/-- `Variants::anyHomref`: loop over calls, return true on the first homref
call, else false. -/
def Variants.anyHomref (v : Variants) : Bool :=
  v.calls.any fun c => c.isHomref

/-- `Variants::allHomref`: loop over calls, return false on the first
non-homref call, then return `calls.size() > 0`. -/
def Variants.allHomref (v : Variants) : Bool :=
  (v.calls.all fun c => c.isHomref) && decide (0 < v.calls.length)

/-- `Variants::anyAmbiguous`: loop over the per-sample ambiguous allele
lists, return true on the first non-empty one, else false. -/
def Variants.anyAmbiguous (v : Variants) : Bool :=
  v.ambiguous_alleles.any fun c => !c.isEmpty

/-- A `Variants` block with no calls, no variation and no ambiguous lists. -/
def emptyVariants : Variants where
  chr := "chr1"
  variation := []
  calls := []
  pos := 0
  len := 0
  info := []
  ambiguous_alleles := []

/-- C10: on an empty calls vector `allHomref` is false (not vacuously true)
and `anyHomref` is false; `allHomref` always implies `anyHomref`. -/
theorem allHomref_not_vacuous (v : Variants) :
    (v.calls = [] → v.allHomref = false ∧ v.anyHomref = false) ∧
    (v.allHomref = true → v.anyHomref = true) := by
  constructor
  · intro h
    simp [Variants.allHomref, Variants.anyHomref, h]
  · intro h
    rw [Variants.allHomref, Bool.and_eq_true, List.all_eq_true,
      decide_eq_true_eq] at h
    obtain ⟨hall, hpos⟩ := h
    rw [Variants.anyHomref, List.any_eq_true]
    obtain ⟨c, hc⟩ := List.exists_mem_of_ne_nil v.calls (List.length_pos.mp hpos)
    exact ⟨c, hc, hall c hc⟩

theorem allHomref_not_vacuous_witness :
    (emptyVariants.calls = [] ∧
     emptyVariants.allHomref = false ∧ emptyVariants.anyHomref = false) ∧
    ({ emptyVariants with calls := [mkCall 0 0 2] }.allHomref = true ∧
     { emptyVariants with calls := [mkCall 0 0 2] }.anyHomref = true) :=
  ⟨⟨rfl, (allHomref_not_vacuous emptyVariants).1 rfl⟩,
   by decide,
   (allHomref_not_vacuous { emptyVariants with calls := [mkCall 0 0 2] }).2
     (by decide)⟩

/-- In-place update of the `n`-th element of a vector, as the C++ code's
`v[n] = f(v[n])`; out-of-range indices leave the list unchanged. -/
def modifyIdx {α : Type} : List α → Nat → (α → α) → List α
  | [], _, _ => []
  | a :: as, 0, f => f a :: as
  | a :: as, n + 1, f => a :: modifyIdx as n f

theorem modifyIdx_get? {α : Type} (l : List α) (n : Nat) (f : α → α) (m : Nat) :
    (modifyIdx l n f).get? m = if m = n then (l.get? n).map f else l.get? m := by
  induction l generalizing n m with
  | nil => simp [modifyIdx]
  | cons a as ih =>
    cases n with
    | zero =>
      cases m with
      | zero => simp [modifyIdx]
      | succ m => simp [modifyIdx]
    | succ n =>
      cases m with
      | zero => simp [modifyIdx]
      | succ m => simpa [modifyIdx] using ih n m

/-- Whether `sample`'s call already holds the maximum allele count
(`ngt >= MAX_GT`), so that a further allele cannot enter the genotype
array. -/
def gtOverflow (v : Variants) (sample : Nat) : Bool :=
  match v.calls.get? sample with
  | some c => decide (MAX_GT ≤ c.ngt)
  | none => false

/-- Modelled from the spec: `add_variant` is declared in Variant.hh but
implemented in VariantProcessor.cpp, which is not among the provided
sources.  Per the spec it records one allele edit for one sample at the
block's locus and extends `[pos, pos+len)` to cover it; if the sample
already holds the maximum allele count, the new allele index is appended to
that sample's ambiguous-allele list instead of the genotype array.  The new
alternate-allele index is one past the edits already stored (0 denotes the
reference allele).  The spec assigns the `het` flag no role in the parts the
claims touch, so it is carried but unused. -/
def addVariant (v : Variants) (sample : Nat) (rv : RefVar) (het : Bool) :
    Variants :=
  let idx : Int := Int.ofNat (v.variation.length + 1)
  let newPos := min v.pos rv.start
  let newLen := max (v.pos + v.len) (rv.stop + 1) - newPos
  if gtOverflow v sample then
    { v with variation := v.variation ++ [rv], pos := newPos, len := newLen,
             ambiguous_alleles :=
               modifyIdx v.ambiguous_alleles sample fun l => l ++ [idx] }
  else
    { v with variation := v.variation ++ [rv], pos := newPos, len := newLen,
             calls := modifyIdx v.calls sample fun c =>
               { c with gt := fun j => if (j : Nat) = c.ngt then idx else c.gt j,
                        ngt := c.ngt + 1 } }

/-- C8: `anyAmbiguous` is true iff some sample's ambiguous-allele list is
non-empty; appending an allele for a sample already at ploidy capacity makes
`anyAmbiguous` true while every other sample's list stays empty. -/
theorem anyAmbiguous_iff_and_overflow (v : Variants) (s : Nat) (rv : RefVar)
    (het : Bool) (hfull : gtOverflow v s = true)
    (hs : s < v.ambiguous_alleles.length)
    (hemp : ∀ l ∈ v.ambiguous_alleles, l = []) :
    (∀ w : Variants, w.anyAmbiguous = true ↔ ∃ l ∈ w.ambiguous_alleles, l ≠ []) ∧
    (addVariant v s rv het).anyAmbiguous = true ∧
    (∀ j, j ≠ s → ∀ l,
      (addVariant v s rv het).ambiguous_alleles.get? j = some l → l = []) := by
  have hadd : (addVariant v s rv het).ambiguous_alleles =
      modifyIdx v.ambiguous_alleles s
        (fun l => l ++ [Int.ofNat (v.variation.length + 1)]) := by
    simp only [addVariant, hfull, if_true]
  refine ⟨fun w => ?_, ?_, ?_⟩
  · rw [Variants.anyAmbiguous, List.any_eq_true]
    constructor
    · rintro ⟨l, hl, hne⟩
      exact ⟨l, hl, by simpa using hne⟩
    · rintro ⟨l, hl, hne⟩
      exact ⟨l, hl, by simpa using hne⟩
  · obtain ⟨l₀, hl₀⟩ : ∃ l₀, v.ambiguous_alleles.get? s = some l₀ :=
      ⟨v.ambiguous_alleles.get ⟨s, hs⟩, List.get?_eq_get hs⟩
    have hsome : (addVariant v s rv het).ambiguous_alleles.get? s =
        some (l₀ ++ [Int.ofNat (v.variation.length + 1)]) := by
      rw [hadd, modifyIdx_get?, if_pos rfl, hl₀]
      rfl
    rw [Variants.anyAmbiguous, List.any_eq_true]
    refine ⟨l₀ ++ [Int.ofNat (v.variation.length + 1)],
      List.get?_mem hsome, by simp⟩
  · intro j hj l hl
    rw [hadd, modifyIdx_get?, if_neg hj] at hl
    exact hemp l (List.get?_mem hl)

/-- A two-sample block whose first sample's genotype array is full. -/
def twoSampleBlock : Variants where
  chr := "chr1"
  variation := [⟨100, 100, "A"⟩, ⟨100, 100, "C"⟩]
  calls := [mkCall 1 2 2, mkCall 0 0 2]
  pos := 100
  len := 1
  info := []
  ambiguous_alleles := [[], []]

theorem anyAmbiguous_iff_and_overflow_witness :
    (gtOverflow twoSampleBlock 0 = true ∧
     0 < twoSampleBlock.ambiguous_alleles.length ∧
     ∀ l ∈ twoSampleBlock.ambiguous_alleles, l = []) ∧
    ((∀ w : Variants, w.anyAmbiguous = true ↔ ∃ l ∈ w.ambiguous_alleles, l ≠ []) ∧
     (addVariant twoSampleBlock 0 ⟨200, 200, "T"⟩ false).anyAmbiguous = true ∧
     (∀ j, j ≠ 0 → ∀ l,
       (addVariant twoSampleBlock 0 ⟨200, 200, "T"⟩ false).ambiguous_alleles.get? j
         = some l → l = [])) :=
  ⟨⟨by decide, by decide, by decide⟩,
   anyAmbiguous_iff_and_overflow twoSampleBlock 0 ⟨200, 200, "T"⟩ false
     (by decide) (by decide) (by decide)⟩

/-- Replace the value of the first token for `name` in an annotation token
list, leaving everything else in place. -/
def replaceFirstInfo : List (String × String) → String → String →
    List (String × String)
  | [], _, _ => []
  | t :: ts, name, value =>
    if t.1 = name then (name, value) :: ts
    else t :: replaceFirstInfo ts name value

/-- Modelled from the spec: the body of `setVariantInfo` lives in
Variant.cpp, which is not among the provided sources; Variant.hh only
declares it.  Per the spec it find-or-replaces a `key=value` token in the
shared annotation string (modelled as its token list): an existing token for
the key receives the new value, otherwise a fresh token is appended, and an
empty value removes the key's token. -/
def setInfoTokens (info : List (String × String)) (name value : String) :
    List (String × String) :=
  if value = "" then info.filter fun t => t.1 != name
  else if info.any fun t => t.1 == name then replaceFirstInfo info name value
  else info ++ [(name, value)]

/-- `setVariantInfo` of Variant.hh, acting on the block's annotation token
list through `setInfoTokens`. -/
def setVariantInfo (v : Variants) (name value : String) : Variants :=
  { v with info := setInfoTokens v.info name value }

theorem filter_replaceFirstInfo (info : List (String × String))
    (key value : String)
    (hone : (info.countP fun t => t.1 == key) ≤ 1)
    (hany : (info.any fun t => t.1 == key) = true) :
    ((replaceFirstInfo info key value).filter fun t => t.1 == key) =
      [(key, value)] := by
  induction info with
  | nil => simp at hany
  | cons t ts ih =>
    by_cases h : t.1 = key
    · rw [replaceFirstInfo, if_pos h]
      rw [List.countP_cons] at hone
      have hz : (ts.countP fun t => t.1 == key) = 0 := by
        simp only [h, beq_self_eq_true, if_pos] at hone
        omega
      have hniln : ∀ a ∈ ts, ¬((fun t : String × String => t.1 == key) a = true) := by
        intro a ha
        exact (List.countP_eq_zero.mp hz) a ha
      rw [List.filter_cons]
      simp only [beq_self_eq_true, if_pos]
      rw [List.filter_eq_nil_iff.mpr hniln]
    · rw [replaceFirstInfo, if_neg h]
      have hpt : (t.1 == key) = false := by simpa using h
      simp only [List.filter_cons, List.countP_cons, List.any_cons, hpt,
        Bool.false_eq_true, ite_false, Bool.false_or, add_zero] at hone hany ⊢
      exact ih hone hany

theorem filter_setInfoTokens (info : List (String × String))
    (key value : String) (hval : value ≠ "")
    (hone : (info.countP fun t => t.1 == key) ≤ 1) :
    ((setInfoTokens info key value).filter fun t => t.1 == key) =
      [(key, value)] := by
  rw [setInfoTokens, if_neg hval]
  by_cases hany : (info.any fun t => t.1 == key) = true
  · rw [if_pos hany]
    exact filter_replaceFirstInfo info key value hone hany
  · rw [if_neg hany]
    rw [List.filter_append]
    have hnil : (info.filter fun t => t.1 == key) = [] := by
      rw [List.filter_eq_nil_iff]
      intro a ha hpa
      exact hany (List.any_eq_true.mpr ⟨a, ha, hpa⟩)
    rw [hnil]
    simp

theorem filter_setInfoTokens_empty (info : List (String × String))
    (key : String) :
    ((setInfoTokens info key "").filter fun t => t.1 == key) = [] := by
  rw [setInfoTokens, if_pos rfl, List.filter_filter]
  rw [List.filter_eq_nil_iff]
  intro a _
  simp

/-- C7: two successive `setVariantInfo` calls on the same key leave exactly
one token for that key, carrying the last value; an empty value removes the
key's token entirely.  The annotation is assumed to satisfy its invariant of
at most one token per key. -/
theorem setVariantInfo_find_or_replace (v : Variants) (key x y : String)
    (hy : y ≠ "") (hone : (v.info.countP fun t => t.1 == key) ≤ 1) :
    ((setVariantInfo (setVariantInfo v key x) key y).info.filter
        fun t => t.1 == key) = [(key, y)] ∧
    ((setVariantInfo v key "").info.filter fun t => t.1 == key) = [] := by
  constructor
  · have h1 : ((setVariantInfo v key x).info.countP fun t => t.1 == key) ≤ 1 := by
      show ((setInfoTokens v.info key x).countP fun t => t.1 == key) ≤ 1
      rw [List.countP_eq_length_filter]
      by_cases hx : x = ""
      · subst hx
        rw [filter_setInfoTokens_empty]
        simp
      · rw [filter_setInfoTokens v.info key x hx hone]
        simp
    show ((setInfoTokens (setInfoTokens v.info key x) key y).filter
        fun t => t.1 == key) = [(key, y)]
    exact filter_setInfoTokens _ key y hy h1
  · show ((setInfoTokens v.info key "").filter fun t => t.1 == key) = []
    exact filter_setInfoTokens_empty v.info key

/-- A block whose annotation holds a `DP` token and an `AF` token. -/
def infoBlock : Variants :=
  { emptyVariants with info := [("DP", "7"), ("AF", "0.5")] }

theorem setVariantInfo_find_or_replace_witness :
    (("20" : String) ≠ "" ∧ (infoBlock.info.countP fun t => t.1 == "DP") ≤ 1) ∧
    (((setVariantInfo (setVariantInfo infoBlock "DP" "10") "DP" "20").info.filter
        fun t => t.1 == "DP") = [("DP", "20")] ∧
     ((setVariantInfo infoBlock "DP" "").info.filter fun t => t.1 == "DP") = []) :=
  ⟨⟨by decide, by decide⟩,
   setVariantInfo_find_or_replace infoBlock "DP" "10" "20" (by decide) (by decide)⟩

/-- The `VariantBufferMode` enum of Variant.hh. -/
inductive VariantBufferMode where
  | buffer_count
  | buffer_block
  | buffer_all
  | buffer_endpos
deriving DecidableEq

/-- Modelled from the spec: the driver
`AbstractVariantProcessingStep::add(VariantReader&, VariantBufferMode, param)`
is implemented in VariantProcessor.cpp, which is not among the provided
sources; Variant.hh documents `buffer_block` as buffering "up to block
overlap boundary -- param is the number of BP we need to be clear of the
last RefVar end to start a new block".  Accumulation state for the
block-overlap policy: `lastStop` is the end of the last-seen allele edit and
`cur` the current accumulation, newest first.  Before ingesting a candidate,
if its start is at least `n` base pairs past `lastStop` the accumulation is
emitted and a new one starts from the candidate; otherwise the candidate is
merged into the accumulation. -/
def bufferBlockGo (n : Int) : Int → List RefVar → List RefVar →
    List (List RefVar)
  | _, cur, [] => [cur.reverse]
  | lastStop, cur, b :: bs =>
    if n ≤ b.start - lastStop then
      cur.reverse :: bufferBlockGo n b.stop [b] bs
    else
      bufferBlockGo n b.stop (b :: cur) bs

/-- The blocks the block-overlap driver emits for a stream of allele edits,
each block in stream order. -/
def bufferBlockGroups (n : Int) : List RefVar → List (List RefVar)
  | [] => []
  | b :: bs => bufferBlockGo n b.stop [b] bs

/-- Boundary condition between two consecutive emitted blocks: the start of
the second block's first edit is at least `n` past the end of the first
block's last edit. -/
def groupBoundary (n : Int) (g₁ g₂ : List RefVar) : Prop :=
  ∀ p ∈ g₁.getLast?, ∀ b ∈ g₂.head?, n ≤ b.start - p.stop

theorem bufferBlockGo_join (n : Int) (bs : List RefVar) :
    ∀ lastStop cur,
      (bufferBlockGo n lastStop cur bs).flatten = cur.reverse ++ bs := by
  induction bs with
  | nil =>
    intro lastStop cur
    simp [bufferBlockGo]
  | cons b bs ih =>
    intro lastStop cur
    rw [bufferBlockGo]
    by_cases h : n ≤ b.start - lastStop
    · rw [if_pos h]
      simp [ih b.stop [b]]
    · rw [if_neg h, ih b.stop (b :: cur)]
      simp

theorem bufferBlockGo_ne_nil (n : Int) (bs : List RefVar) :
    ∀ lastStop cur, cur ≠ [] →
      ∀ g ∈ bufferBlockGo n lastStop cur bs, g ≠ [] := by
  induction bs with
  | nil =>
    intro lastStop cur hc g hg
    simp only [bufferBlockGo, List.mem_singleton] at hg
    subst hg
    simpa using hc
  | cons b bs ih =>
    intro lastStop cur hc g hg
    rw [bufferBlockGo] at hg
    by_cases h : n ≤ b.start - lastStop
    · rw [if_pos h, List.mem_cons] at hg
      rcases hg with hg | hg
      · subst hg
        simpa using hc
      · exact ih b.stop [b] (by simp) g hg
    · rw [if_neg h] at hg
      exact ih b.stop (b :: cur) (by simp) g hg

theorem bufferBlockGo_chain (n : Int) (bs : List RefVar) :
    ∀ lastStop cur, (∀ c ∈ cur.head?, c.stop = lastStop) →
      List.Chain' (fun p b => b.start - p.stop < n) cur.reverse →
      ∀ g ∈ bufferBlockGo n lastStop cur bs,
        List.Chain' (fun p b => b.start - p.stop < n) g := by
  induction bs with
  | nil =>
    intro lastStop cur _ hch g hg
    simp only [bufferBlockGo, List.mem_singleton] at hg
    subst hg
    exact hch
  | cons b bs ih =>
    intro lastStop cur hstop hch g hg
    rw [bufferBlockGo] at hg
    by_cases h : n ≤ b.start - lastStop
    · rw [if_pos h, List.mem_cons] at hg
      rcases hg with hg | hg
      · subst hg
        exact hch
      · exact ih b.stop [b] (by simp) (by simp) g hg
    · rw [if_neg h] at hg
      refine ih b.stop (b :: cur) (by simp) ?_ g hg
      rw [List.reverse_cons, List.chain'_append]
      refine ⟨hch, List.chain'_singleton b, ?_⟩
      intro x hx y hy
      rw [List.getLast?_reverse] at hx
      rw [List.head?_cons, Option.mem_some_iff] at hy
      subst hy
      have := hstop x hx
      omega

theorem bufferBlockGo_head (n : Int) (bs : List RefVar) :
    ∀ lastStop cur, cur ≠ [] →
      ∃ g gs, bufferBlockGo n lastStop cur bs = g :: gs ∧
        g.head? = cur.getLast? := by
  induction bs with
  | nil =>
    intro lastStop cur _
    exact ⟨cur.reverse, [], rfl, List.head?_reverse cur⟩
  | cons b bs ih =>
    intro lastStop cur hc
    rw [bufferBlockGo]
    by_cases h : n ≤ b.start - lastStop
    · rw [if_pos h]
      exact ⟨cur.reverse, _, rfl, List.head?_reverse cur⟩
    · rw [if_neg h]
      obtain ⟨g, gs, heq, hh⟩ := ih b.stop (b :: cur) (by simp)
      refine ⟨g, gs, heq, ?_⟩
      rw [hh]
      obtain ⟨c, cs, rfl⟩ := List.exists_cons_of_ne_nil hc
      exact List.getLast?_cons_cons

theorem bufferBlockGo_boundary (n : Int) (bs : List RefVar) :
    ∀ lastStop cur, cur ≠ [] → (∀ c ∈ cur.head?, c.stop = lastStop) →
      List.Chain' (groupBoundary n) (bufferBlockGo n lastStop cur bs) := by
  induction bs with
  | nil =>
    intro lastStop cur _ _
    exact List.chain'_singleton cur.reverse
  | cons b bs ih =>
    intro lastStop cur hc hstop
    rw [bufferBlockGo]
    by_cases h : n ≤ b.start - lastStop
    · rw [if_pos h]
      obtain ⟨g, gs, heq, hh⟩ := bufferBlockGo_head n bs b.stop [b] (by simp)
      rw [heq]
      rw [List.chain'_cons']
      constructor
      · intro g' hg'
        rw [List.head?_cons, Option.mem_some_iff] at hg'
        subst hg'
        intro p hp b' hb'
        rw [List.getLast?_reverse] at hp
        rw [hh] at hb'
        simp only [List.getLast?_singleton, Option.mem_some_iff] at hb'
        subst hb'
        have := hstop p hp
        omega
      · have := ih b.stop [b] (by simp) (by simp)
        rw [heq] at this
        exact this
    · rw [if_neg h]
      exact ih b.stop (b :: cur) (by simp) (by simp)

/-- C2: under the block-overlap policy with parameter `n`, the emitted
blocks partition the ingested stream in order; inside a block every
candidate followed the previous edit's end by less than `n` base pairs
(it was merged), and each new block starts exactly at a candidate whose
start is at least `n` past the end of the last-seen edit.  In particular,
with `n = 50`, point edits at 100 and 140 (gap 40) share a block and an
edit at 300 (gap 160) opens a new one. -/
theorem bufferBlock_emits_iff_gap_ge (n : Int) (bs : List RefVar) :
    (bufferBlockGroups n bs).flatten = bs ∧
    (∀ g ∈ bufferBlockGroups n bs, g ≠ [] ∧
      List.Chain' (fun p b => b.start - p.stop < n) g) ∧
    List.Chain' (groupBoundary n) (bufferBlockGroups n bs) ∧
    bufferBlockGroups 50 [⟨100, 100, "A"⟩, ⟨140, 140, "C"⟩, ⟨300, 300, "T"⟩] =
      [[⟨100, 100, "A"⟩, ⟨140, 140, "C"⟩], [⟨300, 300, "T"⟩]] := by
  refine ⟨?_, ?_, ?_, by decide⟩
  · cases bs with
    | nil => rfl
    | cons b bs =>
      rw [bufferBlockGroups, bufferBlockGo_join]
      simp
  · intro g hg
    cases bs with
    | nil => simp [bufferBlockGroups] at hg
    | cons b bs =>
      rw [bufferBlockGroups] at hg
      exact ⟨bufferBlockGo_ne_nil n bs b.stop [b] (by simp) g hg,
        bufferBlockGo_chain n bs b.stop [b] (by simp) (by simp) g hg⟩
  · cases bs with
    | nil => exact List.chain'_nil
    | cons b bs =>
      rw [bufferBlockGroups]
      exact bufferBlockGo_boundary n bs b.stop [b] (by simp) (by simp)

end variant
